import Mathlib

/-!
Shallow embedding of the AP_Poker bot (`src/bot/AP_Poker/player.py`) and
proofs about its card allocator, Monte Carlo equity estimator, per-board
betting policy and threshold tuner.

Modelling conventions:
* chips, pips, pots, stacks and scores are integers (`ℤ`), exactly as in the
  Python source;
* Python floats (hand strengths, thresholds, random draws) are modelled as
  exact rationals (`ℚ`);
* the transcendental library calls `math.sqrt` and `math.exp` are passed in
  as abstract function parameters (`sqrtQ`, `expQ`): every theorem below is
  proved for an arbitrary choice of these functions, so nothing depends on
  their numerical values;
* `random.random()` / `random.sample` draws are passed in as explicit oracle
  inputs (`coin`, `sample`), making the decision functions deterministic
  functions of their inputs;
* the starting-strength table `self.starting_strengths` (loaded from
  `hole_strengths.csv`) is an abstract total map `tbl : String → ℚ` keyed by
  the canonical hole key, and the external hand evaluator `eval7.evaluate`
  is an abstract function `List Card → ℤ`.
-/

namespace APPoker

/-- A playing card: the engine's two-character format, e.g. `Kd`, as a
(rank character, suit character) pair. -/
structure Card where
  rank : Char
  suit : Char
deriving DecidableEq

instance : Inhabited Card := ⟨⟨'2', 's'⟩⟩

/-- The dictionary `RANK_DICT = {'2':2, ..., 'A':14}` from `player.py`. -/
def rank_to_numeric (r : Char) : ℤ :=
  if r = '2' then 2
  else if r = '3' then 3
  else if r = '4' then 4
  else if r = '5' then 5
  else if r = '6' then 6
  else if r = '7' then 7
  else if r = '8' then 8
  else if r = '9' then 9
  else if r = 'T' then 10
  else if r = 'J' then 11
  else if r = 'Q' then 12
  else if r = 'K' then 13
  else if r = 'A' then 14
  else 0

/-- Source `sort_cards_by_rank`: `sorted(cards, reverse=True, key=rank)` — a stable
descending sort by numeric rank. -/
def sort_cards_by_rank (cards : List Card) : List Card :=
  cards.mergeSort (fun a b => decide (rank_to_numeric b.rank ≤ rank_to_numeric a.rank))

/-- Source `hole_list_to_key`: canonical starting-hand key — higher rank first, then
an `s`/`o` suited flag. -/
def hole_list_to_key (hole : List Card) : String :=
  let card1 := hole.getD 0 default
  let card2 := hole.getD 1 default
  let suit_string := if card1.suit = card2.suit then "s" else "o"
  if rank_to_numeric card2.rank ≤ rank_to_numeric card1.rank then
    String.mk [card1.rank, card2.rank] ++ suit_string
  else
    String.mk [card2.rank, card1.rank] ++ suit_string

/-- Table strength of a candidate pair `(c₁, c₂)`:
`self.starting_strengths[self.hole_list_to_key([c1, c2])]`. -/
def pairStrength (tbl : String → ℚ) (p : Card × Card) : ℚ :=
  tbl (hole_list_to_key [p.1, p.2])

/-- All index pairs `i < j` of a card list, in the encounter order of the
double loop `for i in range(len-1): for j in range(i+1, len)` of
`allocate_cards`. -/
def pairsOf : List Card → List (Card × Card)
  | [] => []
  | c :: cs => (cs.map (fun d => (c, d))) ++ pairsOf cs

/-- Inner scan of `allocate_cards`: runs over the candidate pairs carrying the
accumulator `(max_strength_hole, temp_cards)`, replacing it whenever a pair's
strength is strictly greater (`if strength > max_strength_hole`). -/
def bestPairAux (tbl : String → ℚ) : List (Card × Card) → ℚ × List Card → ℚ × List Card
  | [], acc => acc
  | p :: ps, acc =>
    let strength := pairStrength tbl p
    bestPairAux tbl ps (if acc.1 < strength then (strength, [p.1, p.2]) else acc)

/-- One iteration of the selection loop of `allocate_cards`: scan all pairs of
the remaining cards starting from `max_strength_hole = 0`, `temp_cards = []`. -/
def bestPair (tbl : String → ℚ) (cards : List Card) : ℚ × List Card :=
  bestPairAux tbl (pairsOf cards) (0, [])

/-- The per-round allocation state of the bot:
`self.board_allocations` and `self.hole_strengths` (indexed 0..2). -/
structure AllocState where
  board_allocations : ℕ → List Card
  hole_strengths : ℕ → ℚ

/-- Iteration `k` of the loop in `allocate_cards`: select the strongest
remaining pair, write it (and its strength) to slot `2 - k`, and remove its
two cards from the remaining card list (`list.remove` = erase the first
occurrence). -/
def allocate_step (tbl : String → ℚ) (k : ℕ) (cards : List Card) (st : AllocState) :
    AllocState × List Card :=
  let best := bestPair tbl cards
  let temp_cards := best.2
  let st2 : AllocState :=
    { board_allocations := Function.update st.board_allocations (2 - k) temp_cards
      hole_strengths := Function.update st.hole_strengths (2 - k) best.1 }
  (st2, (cards.erase (temp_cards.getD 0 default)).erase (temp_cards.getD 1 default))

/-- Source `allocate_cards`: sort the six dealt cards by rank, then run the greedy
selection loop `for k in range(3)`. -/
def allocate_cards (tbl : String → ℚ) (st : AllocState) (my_cards : List Card) : AllocState :=
  let cards0 := sort_cards_by_rank my_cards
  let r0 := allocate_step tbl 0 cards0 st
  let r1 := allocate_step tbl 1 r0.2 r0.1
  let r2 := allocate_step tbl 2 r1.2 r1.1
  r2.1

/-! ## Equity estimator (`public_eval`) -/

/-- The list `NUMS` from `player.py`. -/
def NUMS : List Char := ['A', '2', '3', '4', '5', '6', '7', '8', '9', 'T', 'J', 'Q', 'K']

/-- The list `SUITS` from `player.py`. -/
def SUITS : List Char := ['s', 'c', 'd', 'h']

/-- The deck `FULL_DECK`: all 52 rank–suit combinations, built rank-major as in the
module-level loop of `player.py`. -/
def FULL_DECK : List Card := NUMS.flatMap (fun r => SUITS.map (fun s => ⟨r, s⟩))

/-- Source `public_eval`: Monte Carlo equity estimate.  `evalFn` stands for the
external `eval7.evaluate`; `sample t remaining n` stands for the draw
`random.sample(remaining_cards, n)` of iteration `t` (an oracle for the
process randomness).  Per iteration the score gains 2 for a strict win, 1 for
an exact tie, 0 for a loss; the result is `score / (2 * iters)`. -/
def public_eval (evalFn : List Card → ℤ) (sample : ℕ → List Card → ℕ → List Card)
    (priv pub : List Card) (street : ℕ) (iters : ℕ) : ℚ :=
  let PUB := 5 - street
  let OPP := 2
  let remaining_cards := FULL_DECK.filter (fun c => decide (c ∉ priv) && decide (c ∉ pub))
  let score : ℤ := (List.range iters).foldl (fun score t =>
    let draw := sample t remaining_cards (OPP + PUB)
    let opp_hole := draw.take OPP
    let hidden_public := draw.drop OPP
    let my_strength := evalFn (priv ++ pub ++ hidden_public)
    let opp_strength := evalFn (opp_hole ++ pub ++ hidden_public)
    if opp_strength < my_strength then score + 2
    else if my_strength = opp_strength then score + 1
    else score) 0
  (score : ℚ) / (2 * iters)

/-! ## Threshold tuner (`mutate`) -/

/-- The tunable thresholds: the module-level dictionaries `_RAISE_MIN_STR`
(`pre`/`post`), `_CALL_MIN_STR` (`pre`/`post`) and `_RAISE_VALUES`
(`exp`/`const`). -/
structure Thresholds where
  raise_min_pre : ℚ
  raise_min_post : ℚ
  call_min_pre : ℚ
  call_min_post : ℚ
  raise_exp : ℚ
  raise_const : ℚ
deriving DecidableEq

/-- A fresh perturbation sample: the six values drawn by the
`random.random()` expressions in the first extinction branch of `mutate`
(oracle inputs for the process randomness). -/
structure Deltas where
  draise_pre : ℚ
  draise_post : ℚ
  dcall_pre : ℚ
  dcall_post : ℚ
  draise_exp : ℚ
  draise_const : ℚ
deriving DecidableEq

/-- The tuner's state: the shared thresholds plus the bot fields
`self.total_payoffs`, `self.mutated` and the six stored perturbations
`self.draise_pre`, …, `self.draise_const`. -/
structure TunerState where
  thresholds : Thresholds
  total_payoffs : ℤ
  mutated : Bool
  draise_pre : ℚ
  draise_post : ℚ
  dcall_pre : ℚ
  dcall_post : ℚ
  draise_exp : ℚ
  draise_const : ℚ
deriving DecidableEq

/-- Source `mutate`: accumulate this round's payoff; at every window boundary
(`round_num % 5 == 0`) compare the accumulated payoff against the target
`6 * mutate_iters`, perturb/revert/keep the thresholds accordingly, and reset
the accumulator.  `fresh` stands for the random perturbations that would be
sampled in the first-extinction branch. -/
def mutate (fresh : Deltas) (st0 : TunerState) (my_delta : ℤ) (round_num : ℕ) : TunerState :=
  let st := { st0 with total_payoffs := st0.total_payoffs + my_delta }
  let mutate_iters : ℕ := 5
  if round_num % mutate_iters = 0 then
    let st2 :=
      if st.total_payoffs < 6 * (mutate_iters : ℤ) then
        if st.mutated = false then
          -- 'went extinct :( new mutation...'
          let st3 := { st with
            mutated := true
            draise_pre := fresh.draise_pre
            draise_post := fresh.draise_post
            dcall_pre := fresh.dcall_pre
            dcall_post := fresh.dcall_post
            draise_exp := fresh.draise_exp
            draise_const := fresh.draise_const }
          { st3 with thresholds :=
            { raise_min_pre := st3.thresholds.raise_min_pre + st3.draise_pre
              raise_min_post := st3.thresholds.raise_min_post + st3.draise_post
              call_min_pre := st3.thresholds.call_min_pre + st3.dcall_pre
              call_min_post := st3.thresholds.call_min_post + st3.dcall_post
              raise_exp := st3.thresholds.raise_exp + st3.draise_exp
              raise_const := st3.thresholds.raise_const + st3.draise_const } }
        else
          -- 'went extinct again :( flipping mutation...'
          { st with
            mutated := false
            thresholds :=
            { raise_min_pre := st.thresholds.raise_min_pre - st.draise_pre
              raise_min_post := st.thresholds.raise_min_post - st.draise_post
              call_min_pre := st.thresholds.call_min_pre - st.dcall_pre
              call_min_post := st.thresholds.call_min_post - st.dcall_post
              raise_exp := st.thresholds.raise_exp - st.draise_exp
              raise_const := st.thresholds.raise_const - st.draise_const } }
      else if st.total_payoffs = 6 * (mutate_iters : ℤ) then
        -- 'tie?!?!?!'
        st
      else
        -- 'did well :)'
        { st with mutated := false }
    { st2 with total_payoffs := 0 }
  else st

/-! ## Betting policy (`get_actions`) -/

/-- The engine action classes used by the bot (`skeleton.actions`). -/
inductive PokerAction where
  | AssignAction (cards : List Card)
  | FoldAction
  | CallAction
  | CheckAction
  | RaiseAction (amount : ℤ)
deriving DecidableEq

/-- Python `int()` applied to a float value: truncation toward zero. -/
def pyInt (q : ℚ) : ℤ := if 0 ≤ q then ⌊q⌋ else ⌈q⌉

/-- The constant `_INTIMIDATION_THRESHOLD = 0` from `player.py`. -/
def INTIMIDATION_THRESHOLD : ℤ := 0

/-- One board's slice of the engine round state, as read at the top of
`get_actions`:
* `hasAssign` — `AssignAction in legal_actions[i]`;
* `isTerminal` — `isinstance(round_state.board_states[i], TerminalState)`;
* `legalRaise` / `legalCall` / `legalCheck` — membership of the remaining
  action classes in `legal_actions[i]`;
* `cards` — `self.board_allocations[i]`;
* `my_pips` / `opp_pips` — `board_state.pips`;
* `pot` — `round_state.board_states[i].pot`;
* `min_raise` / `max_raise` — `board_states[i].raise_bounds(...)`;
* `strength` — `self.hole_strengths[i]` pre-flop, the `public_eval` result
  post-flop (a float input either way);
* `coin` — the `random.random()` draw consumed on this board, if any. -/
structure BoardInput where
  hasAssign : Bool
  isTerminal : Bool
  legalRaise : Bool
  legalCall : Bool
  legalCheck : Bool
  cards : List Card
  my_pips : ℤ
  opp_pips : ℤ
  pot : ℤ
  min_raise : ℤ
  max_raise : ℤ
  strength : ℚ
  coin : ℚ

/-- The candidate raise size before clamping (lines 412–430 of `player.py`):
pre-flop a linear function of `strength - 0.5` gated by the table strength of
the allocated hole; post-flop a convex function of street and strength gated
by `strength` itself; `0` when the gate fails.  `expQ` abstracts `math.exp`. -/
def raise_amount_raw (tbl : String → ℚ) (expQ : ℚ → ℚ) (T : Thresholds)
    (street : ℕ) (b : BoardInput) : ℤ :=
  let board_cont_cost := b.opp_pips - b.my_pips
  if street < 3 then
    if T.raise_min_pre < tbl (hole_list_to_key b.cards) then
      pyInt ((b.my_pips : ℚ) + (board_cont_cost : ℚ) + (b.strength - 1/2) * 10)
    else 0
  else
    if T.raise_min_post < b.strength then
      pyInt ((b.my_pips : ℚ) + (board_cont_cost : ℚ)
        + ((street : ℚ))^2 * expQ (T.raise_exp * (b.strength - 0.321875)) - T.raise_const)
    else 0

/-- Lines 433–434: `raise_amount = max(min_raise, raise_amount);
raise_amount = min(max_raise, raise_amount)`. -/
def raise_amount_clamped (tbl : String → ℚ) (expQ : ℚ → ℚ) (T : Thresholds)
    (street : ℕ) (b : BoardInput) : ℤ :=
  min b.max_raise (max b.min_raise (raise_amount_raw tbl expQ T street b))

/-- Lines 438–452: the default "commit" action and its cost, chosen by the
precedence raise > call > check > fold. -/
def commitPair (legalRaise legalCall legalCheck : Bool)
    (raise_amount my_pips board_cont_cost my_stack net_cost : ℤ) : PokerAction × ℤ :=
  let raise_cost := raise_amount - my_pips
  if legalRaise = true ∧ raise_cost ≤ my_stack - net_cost ∧ raise_cost ≠ 0 then
    (PokerAction.RaiseAction raise_amount, raise_cost)
  else if legalCall = true ∧ board_cont_cost ≤ my_stack - net_cost then
    (PokerAction.CallAction, board_cont_cost)
  else if legalCheck = true then
    (PokerAction.CheckAction, 0)
  else
    (PokerAction.FoldAction, 0)

/-- Lines 455–463: the intimidation adjustment applied to `strength` when the
opponent has raised (`board_cont_cost > 0`); the pre-flop
`board_cont_cost > 20` bluff is special-cased to no adjustment.  `sqrtQ`
abstracts `math.sqrt`. -/
def adjusted_strength (sqrtQ : ℚ → ℚ) (street : ℕ) (board_cont_cost : ℤ) (strength : ℚ) : ℚ :=
  if INTIMIDATION_THRESHOLD < board_cont_cost then
    if street = 0 ∧ 20 < board_cont_cost then strength
    else
      let intimidation :=
        0.05 * sqrtQ ((board_cont_cost : ℚ) - (INTIMIDATION_THRESHOLD : ℚ)) * sqrtQ strength
      max 0 (strength - intimidation)
  else strength

/-- The body of the per-board loop of `get_actions` (lines 398–498): returns
the action emitted for this board together with the updated cross-board
`net_cost` accumulator. -/
def boardStep (tbl : String → ℚ) (sqrtQ expQ : ℚ → ℚ) (T : Thresholds)
    (street : ℕ) (my_stack : ℤ) (net_cost : ℤ) (b : BoardInput) : PokerAction × ℤ :=
  if b.hasAssign then (PokerAction.AssignAction b.cards, net_cost)
  else if b.isTerminal then (PokerAction.CheckAction, net_cost)
  else
    let board_cont_cost := b.opp_pips - b.my_pips
    let board_total := b.pot
    let pot_total := b.my_pips + b.opp_pips + board_total
    let raise_min := if street < 3 then T.raise_min_pre else T.raise_min_post
    let call_min := if street < 3 then T.call_min_pre else T.call_min_post
    let raise_amount := raise_amount_clamped tbl expQ T street b
    let commit :=
      commitPair b.legalRaise b.legalCall b.legalCheck raise_amount b.my_pips
        board_cont_cost my_stack net_cost
    if 0 < board_cont_cost then
      -- our opp raised!!! we must respond
      let preintimidation_strength := b.strength
      let strength := adjusted_strength sqrtQ street board_cont_cost b.strength
      let pot_odds : ℚ := (board_cont_cost : ℚ) / ((pot_total : ℚ) + (board_cont_cost : ℚ))
      if pot_odds ≤ strength then
        -- Positive Expected Value!! at least call!!
        if b.coin < 1.4 * strength ∧ raise_min < preintimidation_strength then
          (commit.1, net_cost + commit.2)
        else if (sqrtQ ((board_cont_cost : ℚ) - (INTIMIDATION_THRESHOLD : ℚ)) < 6 ∧
                  call_min < preintimidation_strength) ∨
                raise_min < preintimidation_strength then
          if board_cont_cost ≤ my_stack - net_cost then
            (PokerAction.CallAction, net_cost + board_cont_cost)
          else
            -- we can't afford to call :(
            (PokerAction.FoldAction, net_cost)
        else (PokerAction.FoldAction, net_cost)
      else
        -- Negative Expected Value!!! FOLD!!!
        (PokerAction.FoldAction, net_cost)
    else
      -- board_cont_cost == 0, we control the action
      if b.coin < 1.4 * b.strength ∧ raise_min < b.strength then
        (commit.1, net_cost + commit.2)
      else (PokerAction.CheckAction, net_cost)

/-- The per-board loop of `get_actions`, threading the `net_cost`
accumulator left to right across the boards. -/
def get_actions_aux (tbl : String → ℚ) (sqrtQ expQ : ℚ → ℚ) (T : Thresholds)
    (street : ℕ) (my_stack : ℤ) : List BoardInput → ℤ → List PokerAction × ℤ
  | [], net_cost => ([], net_cost)
  | b :: bs, net_cost =>
    let r := boardStep tbl sqrtQ expQ T street my_stack net_cost b
    let rest := get_actions_aux tbl sqrtQ expQ T street my_stack bs r.2
    (r.1 :: rest.1, rest.2)

/-- Source `get_actions`: one decision cycle over the three boards, starting from
`net_cost = 0`. -/
def get_actions (tbl : String → ℚ) (sqrtQ expQ : ℚ → ℚ) (T : Thresholds)
    (street : ℕ) (my_stack : ℤ) (boards : List BoardInput) : List PokerAction × ℤ :=
  get_actions_aux tbl sqrtQ expQ T street my_stack boards 0

/-! ## Theorems: threshold tuner -/

/-- Claim C10: at a window boundary (`round_num % 5 == 0`) where the
accumulated payoff exactly equals the target `6 * 5 = 30`, `mutate` changes
no threshold value and leaves the active-mutation flag (and the stored
perturbations) unchanged; the only state change is the reset of the payoff
accumulator to zero.  Moreover the accumulator is reset at every window
boundary in every branch. -/
theorem mutate_tie_frame (fresh : Deltas) (st : TunerState) (my_delta : ℤ) (round_num : ℕ)
    (hwin : round_num % 5 = 0) (heq : st.total_payoffs + my_delta = 30) :
    mutate fresh st my_delta round_num = { st with total_payoffs := 0 } ∧
    ∀ (fresh2 : Deltas) (st2 : TunerState) (d2 : ℤ),
      (mutate fresh2 st2 d2 round_num).total_payoffs = 0 := by
  constructor
  · unfold mutate
    dsimp only
    split_ifs <;> first | rfl | (exfalso; omega)
  · intro fresh2 st2 d2
    unfold mutate
    dsimp only
    split_ifs <;> first | rfl | (exfalso; omega)

/-- Witness for C10 at a concrete window boundary with payoff sum exactly 30. -/
def witnessDeltas : Deltas := ⟨1, 2, 3, 4, 5, 6⟩

def witnessTuner : TunerState :=
  { thresholds := ⟨0.6066179515462299, 0.7212909509127321, 0.5570778707878955,
      0.6207629881906793, 1.8301191486578343, 14.439631715170798⟩
    total_payoffs := 10
    mutated := true
    draise_pre := 0.01, draise_post := 0.01, dcall_pre := 0.01, dcall_post := 0.01
    draise_exp := 0.01, draise_const := 0.01 }

theorem mutate_tie_frame_witness :
    (5 : ℕ) % 5 = 0 ∧ witnessTuner.total_payoffs + 20 = 30 ∧
    mutate witnessDeltas witnessTuner 20 5 = { witnessTuner with total_payoffs := 0 } :=
  ⟨rfl, rfl, (mutate_tie_frame witnessDeltas witnessTuner 20 5 rfl rfl).1⟩

/-! ## Theorems: equity estimator -/

lemma foldl_step_bounds {g : ℤ → ℕ → ℤ} (hg : ∀ s t, s ≤ g s t ∧ g s t ≤ s + 2) :
    ∀ (l : List ℕ) (a : ℤ), a ≤ l.foldl g a ∧ l.foldl g a ≤ a + 2 * (l.length : ℤ) := by
  intro l
  induction l with
  | nil => intro a; simp
  | cons t ts ih =>
    intro a
    have h1 := hg a t
    have h2 := ih (g a t)
    simp only [List.foldl_cons, List.length_cons]
    constructor
    · exact le_trans h1.1 h2.1
    · have := h2.2
      push_cast
      push_cast at this
      omega

/-- Claim C6: for any evaluator and sampling oracle, any hand, community
cards, street and positive sample count, `public_eval` returns
`score / (2 * iters)` with the per-iteration score increments 2 / 1 / 0, and
the result always lies in `[0, 1]`. -/
theorem public_eval_bounds (evalFn : List Card → ℤ) (sample : ℕ → List Card → ℕ → List Card)
    (priv pub : List Card) (street : ℕ) (iters : ℕ) (h : 0 < iters) :
    0 ≤ public_eval evalFn sample priv pub street iters ∧
    public_eval evalFn sample priv pub street iters ≤ 1 := by
  unfold public_eval
  set g : ℤ → ℕ → ℤ := fun score t =>
    let draw := sample t (FULL_DECK.filter (fun c => decide (c ∉ priv) && decide (c ∉ pub)))
      (2 + (5 - street))
    let opp_hole := draw.take 2
    let hidden_public := draw.drop 2
    let my_strength := evalFn (priv ++ pub ++ hidden_public)
    let opp_strength := evalFn (opp_hole ++ pub ++ hidden_public)
    if opp_strength < my_strength then score + 2
    else if my_strength = opp_strength then score + 1
    else score with hgdef
  have hg : ∀ s t, s ≤ g s t ∧ g s t ≤ s + 2 := by
    intro s t
    rw [hgdef]
    dsimp only
    split_ifs <;> omega
  have hb := foldl_step_bounds hg (List.range iters) 0
  rw [List.length_range] at hb
  have hiters : (0 : ℚ) < 2 * (iters : ℚ) := by positivity
  constructor
  · apply div_nonneg _ (le_of_lt hiters)
    exact_mod_cast hb.1
  · rw [div_le_one hiters]
    have : ((List.range iters).foldl g 0 : ℤ) ≤ 2 * (iters : ℤ) := by
      have := hb.2
      omega
    exact_mod_cast this

theorem public_eval_bounds_witness :
    0 < 1 ∧ (0 ≤ public_eval (fun _ => 0) (fun _ _ _ => []) [] [] 5 1 ∧
      public_eval (fun _ => 0) (fun _ _ _ => []) [] [] 5 1 ≤ 1) :=
  ⟨Nat.one_pos, public_eval_bounds (fun _ => 0) (fun _ _ _ => []) [] [] 5 1 Nat.one_pos⟩

/-! ## Theorems: commit precedence (claim C7) -/

/-- Claim C7 (counterexample): the claim says a raise is chosen only when
"the raise amount differs from a pure call".  A pure call brings the
player's pips up to the opponent's, i.e. its amount is
`opp_pips = my_pips + board_cont_cost`.  Here, with
`my_pips = 0`, `board_cont_cost = 10` and the clamped raise amount `10`,
the commit action is `RaiseAction 10` even though `10` equals the pure-call
amount `0 + 10` — the code's guard is `raise_cost != 0`
(amount ≠ `my_pips`), not amount ≠ `opp_pips`. -/
theorem commit_precedence_counterexample :
    (commitPair true true true 10 0 10 100 0).1 = PokerAction.RaiseAction 10 ∧
    (10 : ℤ) = 0 + 10 := by
  constructor
  · decide
  · norm_num

/-- Claim C7 (amended): the commit action follows the precedence
raise > call > check > fold, where a raise is chosen exactly when raising is
legal, its cost fits within stack minus the already-committed cross-board
cost, and the raise COST is nonzero (the raise amount differs from the
player's current pip level); otherwise a call when legal and affordable,
otherwise a check when legal, otherwise a fold. -/
theorem commit_precedence (lr lc lk : Bool) (ra mp cc S n : ℤ) :
    ((∃ a, (commitPair lr lc lk ra mp cc S n).1 = PokerAction.RaiseAction a) ↔
      (lr = true ∧ ra - mp ≤ S - n ∧ ra - mp ≠ 0)) ∧
    ((commitPair lr lc lk ra mp cc S n).1 = PokerAction.CallAction ↔
      (¬(lr = true ∧ ra - mp ≤ S - n ∧ ra - mp ≠ 0) ∧ lc = true ∧ cc ≤ S - n)) ∧
    ((commitPair lr lc lk ra mp cc S n).1 = PokerAction.CheckAction ↔
      (¬(lr = true ∧ ra - mp ≤ S - n ∧ ra - mp ≠ 0) ∧
        ¬(lc = true ∧ cc ≤ S - n) ∧ lk = true)) ∧
    ((commitPair lr lc lk ra mp cc S n).1 = PokerAction.FoldAction ↔
      (¬(lr = true ∧ ra - mp ≤ S - n ∧ ra - mp ≠ 0) ∧
        ¬(lc = true ∧ cc ≤ S - n) ∧ ¬(lk = true))) := by
  unfold commitPair
  dsimp only
  split_ifs with h1 h2 h3 <;> simp_all

/-! ## Theorems: stack safety, pot-odds fold, raise bounds -/

lemma commitPair_cost_le (lr lc lk : Bool) (ra mp cc S n : ℤ) (h : n ≤ S) :
    (commitPair lr lc lk ra mp cc S n).2 ≤ S - n := by
  unfold commitPair
  dsimp only
  split_ifs with h1 h2 h3
  · exact h1.2.1
  · exact h2.2
  · omega
  · omega

lemma boardStep_net_le (tbl : String → ℚ) (sqrtQ expQ : ℚ → ℚ) (T : Thresholds)
    (street : ℕ) (my_stack net_cost : ℤ) (b : BoardInput) (h : net_cost ≤ my_stack) :
    (boardStep tbl sqrtQ expQ T street my_stack net_cost b).2 ≤ my_stack := by
  have hc := commitPair_cost_le b.legalRaise b.legalCall b.legalCheck
    (raise_amount_clamped tbl expQ T street b) b.my_pips (b.opp_pips - b.my_pips)
    my_stack net_cost h
  unfold boardStep
  dsimp only
  split_ifs <;> dsimp only <;> omega

lemma get_actions_aux_net_le (tbl : String → ℚ) (sqrtQ expQ : ℚ → ℚ) (T : Thresholds)
    (street : ℕ) (my_stack : ℤ) :
    ∀ (bs : List BoardInput) (net_cost : ℤ), net_cost ≤ my_stack →
      (get_actions_aux tbl sqrtQ expQ T street my_stack bs net_cost).2 ≤ my_stack := by
  intro bs
  induction bs with
  | nil => intro net h; exact h
  | cons b bs ih =>
    intro net h
    exact ih _ (boardStep_net_le tbl sqrtQ expQ T street my_stack net b h)

/-- Claim C1: in one decision cycle over the boards, the cross-board cost
accumulator `net_cost` never exceeds the player's stack at the start of the
cycle: it stays at most `my_stack` after every board prefix, and in
particular at the end of `get_actions`. -/
theorem stack_safety (tbl : String → ℚ) (sqrtQ expQ : ℚ → ℚ) (T : Thresholds)
    (street : ℕ) (my_stack : ℤ) (boards : List BoardInput) (h : 0 ≤ my_stack) :
    (∀ k : ℕ,
      (get_actions_aux tbl sqrtQ expQ T street my_stack (boards.take k) 0).2 ≤ my_stack) ∧
    (get_actions tbl sqrtQ expQ T street my_stack boards).2 ≤ my_stack := by
  constructor
  · intro k
    exact get_actions_aux_net_le tbl sqrtQ expQ T street my_stack (boards.take k) 0 h
  · exact get_actions_aux_net_le tbl sqrtQ expQ T street my_stack boards 0 h

def witnessT : Thresholds :=
  ⟨0.6066179515462299, 0.7212909509127321, 0.5570778707878955, 0.6207629881906793,
    1.8301191486578343, 14.439631715170798⟩

def witnessBoard : BoardInput :=
  { hasAssign := false
    isTerminal := false
    legalRaise := true
    legalCall := true
    legalCheck := false
    cards := []
    my_pips := 0
    opp_pips := 2
    pot := 4
    min_raise := 4
    max_raise := 10
    strength := 0
    coin := 1 }

theorem stack_safety_witness :
    (0 : ℤ) ≤ 10 ∧
    (get_actions (fun _ => 1) (fun _ => 0) (fun _ => 0) witnessT 3 10
      [witnessBoard, witnessBoard, witnessBoard]).2 ≤ 10 :=
  ⟨by norm_num,
    (stack_safety (fun _ => 1) (fun _ => 0) (fun _ => 0) witnessT 3 10
      [witnessBoard, witnessBoard, witnessBoard] (by norm_num)).2⟩

/-- Claim C2: on an active (non-assign, non-terminal) board with positive
continue cost, if the intimidation-adjusted strength is strictly below the
pot odds `continue_cost / (pot_total + continue_cost)`, the board's emitted
action is a fold (for any `sqrt`/`exp` oracle, thresholds, coin and stack). -/
theorem pot_odds_fold (tbl : String → ℚ) (sqrtQ expQ : ℚ → ℚ) (T : Thresholds)
    (street : ℕ) (my_stack net_cost : ℤ) (b : BoardInput)
    (hassign : b.hasAssign = false) (hterm : b.isTerminal = false)
    (hcc : 0 < b.opp_pips - b.my_pips)
    (hlt : adjusted_strength sqrtQ street (b.opp_pips - b.my_pips) b.strength <
      ((b.opp_pips - b.my_pips : ℤ) : ℚ) /
        (((b.my_pips + b.opp_pips + b.pot : ℤ) : ℚ) + ((b.opp_pips - b.my_pips : ℤ) : ℚ))) :
    (boardStep tbl sqrtQ expQ T street my_stack net_cost b).1 = PokerAction.FoldAction := by
  unfold boardStep
  dsimp only
  rw [if_neg (by simp [hassign]), if_neg (by simp [hterm]), if_pos hcc,
    if_neg (not_le.mpr hlt)]

def c2Board : BoardInput :=
  { hasAssign := false
    isTerminal := false
    legalRaise := true
    legalCall := true
    legalCheck := false
    cards := []
    my_pips := 0
    opp_pips := 2
    pot := 4
    min_raise := 4
    max_raise := 10
    strength := 0
    coin := 1 }

theorem pot_odds_fold_witness :
    c2Board.hasAssign = false ∧ c2Board.isTerminal = false ∧
    (0 : ℤ) < c2Board.opp_pips - c2Board.my_pips ∧
    adjusted_strength (fun _ => 0) 3 (c2Board.opp_pips - c2Board.my_pips) c2Board.strength <
      ((c2Board.opp_pips - c2Board.my_pips : ℤ) : ℚ) /
        (((c2Board.my_pips + c2Board.opp_pips + c2Board.pot : ℤ) : ℚ) +
          ((c2Board.opp_pips - c2Board.my_pips : ℤ) : ℚ)) ∧
    (boardStep (fun _ => 1) (fun _ => 0) (fun _ => 0) witnessT 3 10 0 c2Board).1 =
      PokerAction.FoldAction := by
  refine ⟨rfl, rfl, by norm_num [c2Board], ?_, ?_⟩
  · norm_num [c2Board, adjusted_strength, INTIMIDATION_THRESHOLD]
  · exact pot_odds_fold (fun _ => 1) (fun _ => 0) (fun _ => 0) witnessT 3 10 0 c2Board
      rfl rfl (by norm_num [c2Board])
      (by norm_num [c2Board, adjusted_strength, INTIMIDATION_THRESHOLD])

lemma commitPair_raise_eq {lr lc lk : Bool} {ra mp cc S n a : ℤ}
    (h : (commitPair lr lc lk ra mp cc S n).1 = PokerAction.RaiseAction a) : a = ra := by
  unfold commitPair at h
  dsimp only at h
  split_ifs at h <;> simp_all

lemma boardStep_raise_eq (tbl : String → ℚ) (sqrtQ expQ : ℚ → ℚ) (T : Thresholds)
    (street : ℕ) (my_stack net_cost : ℤ) (b : BoardInput) (a : ℤ)
    (h : (boardStep tbl sqrtQ expQ T street my_stack net_cost b).1 =
      PokerAction.RaiseAction a) :
    a = raise_amount_clamped tbl expQ T street b := by
  unfold boardStep at h
  dsimp only at h
  split_ifs at h <;> dsimp only at h <;>
    first
      | exact commitPair_raise_eq h
      | simp_all

lemma boardStep_raise_bounds (tbl : String → ℚ) (sqrtQ expQ : ℚ → ℚ) (T : Thresholds)
    (street : ℕ) (my_stack net_cost : ℤ) (b : BoardInput) (a : ℤ)
    (hb : b.min_raise ≤ b.max_raise)
    (h : (boardStep tbl sqrtQ expQ T street my_stack net_cost b).1 =
      PokerAction.RaiseAction a) :
    b.min_raise ≤ a ∧ a ≤ b.max_raise := by
  rw [boardStep_raise_eq tbl sqrtQ expQ T street my_stack net_cost b a h]
  unfold raise_amount_clamped
  omega

lemma get_actions_aux_raise_bounds (tbl : String → ℚ) (sqrtQ expQ : ℚ → ℚ) (T : Thresholds)
    (street : ℕ) (my_stack : ℤ) :
    ∀ (bs : List BoardInput) (net_cost : ℤ), (∀ b ∈ bs, b.min_raise ≤ b.max_raise) →
      ∀ p ∈ ((get_actions_aux tbl sqrtQ expQ T street my_stack bs net_cost).1).zip bs,
        ∀ a, p.1 = PokerAction.RaiseAction a → p.2.min_raise ≤ a ∧ a ≤ p.2.max_raise := by
  intro bs
  induction bs with
  | nil => intro net hb p hp; simp [get_actions_aux] at hp
  | cons b bs ih =>
    intro net hb p hp a ha
    rcases List.mem_cons.mp hp with rfl | hp2
    · exact boardStep_raise_bounds tbl sqrtQ expQ T street my_stack net b a
        (hb b (List.mem_cons_self b bs)) ha
    · exact ih _ (fun x hx => hb x (List.mem_cons_of_mem b hx)) p hp2 a ha

/-- Claim C3: every `RaiseAction` emitted by `get_actions` carries an amount
within its board's `[min_raise, max_raise]` bounds, assuming the engine
supplies `min_raise ≤ max_raise` on each board. -/
theorem raise_bounds (tbl : String → ℚ) (sqrtQ expQ : ℚ → ℚ) (T : Thresholds)
    (street : ℕ) (my_stack : ℤ) (boards : List BoardInput)
    (hb : ∀ b ∈ boards, b.min_raise ≤ b.max_raise) :
    ∀ p ∈ ((get_actions tbl sqrtQ expQ T street my_stack boards).1).zip boards,
      ∀ a, p.1 = PokerAction.RaiseAction a → p.2.min_raise ≤ a ∧ a ≤ p.2.max_raise :=
  get_actions_aux_raise_bounds tbl sqrtQ expQ T street my_stack boards 0 hb

def c3Board : BoardInput :=
  { hasAssign := false
    isTerminal := false
    legalRaise := true
    legalCall := true
    legalCheck := true
    cards := []
    my_pips := 0
    opp_pips := 0
    pot := 4
    min_raise := 2
    max_raise := 10
    strength := 1
    coin := 0 }

theorem raise_bounds_witness :
    (∀ b ∈ [c3Board], b.min_raise ≤ b.max_raise) ∧
    ∀ p ∈ ((get_actions (fun _ => 1) (fun _ => 0) (fun _ => 0) witnessT 3 20 [c3Board]).1).zip
        [c3Board],
      ∀ a, p.1 = PokerAction.RaiseAction a → p.2.min_raise ≤ a ∧ a ≤ p.2.max_raise :=
  ⟨by intro b hb; simp at hb; subst hb; norm_num [c3Board],
    raise_bounds (fun _ => 1) (fun _ => 0) (fun _ => 0) witnessT 3 20 [c3Board]
      (by intro b hb; simp at hb; subst hb; norm_num [c3Board])⟩

/-! ## Theorems: card allocator -/

lemma pairsOf_mem : ∀ {l : List Card} {p : Card × Card}, p ∈ pairsOf l → p.1 ∈ l ∧ p.2 ∈ l := by
  intro l
  induction l with
  | nil => intro p hp; simp [pairsOf] at hp
  | cons c cs ih =>
    intro p hp
    simp only [pairsOf, List.mem_append, List.mem_map] at hp
    rcases hp with ⟨d, hd, hpd⟩ | hp
    · subst hpd
      exact ⟨List.mem_cons_self c cs, List.mem_cons_of_mem c hd⟩
    · have h2 := ih hp
      exact ⟨List.mem_cons_of_mem c h2.1, List.mem_cons_of_mem c h2.2⟩

lemma pairsOf_ne : ∀ {l : List Card}, l.Nodup → ∀ {p : Card × Card}, p ∈ pairsOf l → p.1 ≠ p.2 := by
  intro l
  induction l with
  | nil => intro _ p hp; simp [pairsOf] at hp
  | cons c cs ih =>
    intro hnd p hp
    simp only [pairsOf, List.mem_append, List.mem_map] at hp
    rcases hp with ⟨d, hd, hpd⟩ | hp
    · subst hpd
      intro hcd
      exact (List.nodup_cons.mp hnd).1 (by rw [show c = d from hcd]; exact hd)
    · exact ih (List.nodup_cons.mp hnd).2 hp

lemma pairsOf_sublist {l₁ l₂ : List Card} (hsl : l₁.Sublist l₂) :
    ∀ p ∈ pairsOf l₁, p ∈ pairsOf l₂ := by
  induction hsl with
  | slnil => intro p hp; exact hp
  | cons a _ ih =>
    intro p hp
    simp only [pairsOf, List.mem_append]
    exact Or.inr (ih p hp)
  | cons₂ a hsl ih =>
    intro p hp
    simp only [pairsOf, List.mem_append, List.mem_map] at hp ⊢
    rcases hp with ⟨d, hd, hpd⟩ | hp
    · exact Or.inl ⟨d, hsl.subset hd, hpd⟩
    · exact Or.inr (ih p hp)

lemma pairsOf_head_mem (a b : Card) (t : List Card) : (a, b) ∈ pairsOf (a :: b :: t) := by
  simp [pairsOf]

/-- Characterisation of the inner scan of `allocate_cards`: the accumulator
value never decreases, every scanned pair's strength is bounded by the final
value, and the result is either the untouched accumulator or the first pair
of maximal strength in encounter order (every strictly earlier pair is
strictly weaker, every pair is at most as strong). -/
lemma bestPairAux_spec (tbl : String → ℚ) :
    ∀ (ps : List (Card × Card)) (acc : ℚ × List Card),
      acc.1 ≤ (bestPairAux tbl ps acc).1 ∧
      (∀ p ∈ ps, pairStrength tbl p ≤ (bestPairAux tbl ps acc).1) ∧
      (bestPairAux tbl ps acc = acc ∨
        ∃ l1 p l2, ps = l1 ++ p :: l2 ∧
          bestPairAux tbl ps acc = (pairStrength tbl p, [p.1, p.2]) ∧
          acc.1 < pairStrength tbl p ∧
          ∀ q ∈ l1, pairStrength tbl q < pairStrength tbl p) := by
  intro ps
  induction ps with
  | nil =>
    intro acc
    exact ⟨le_refl _, by simp [bestPairAux], Or.inl rfl⟩
  | cons p ps ih =>
    intro acc
    by_cases hcmp : acc.1 < pairStrength tbl p
    · have hstep : bestPairAux tbl (p :: ps) acc =
          bestPairAux tbl ps (pairStrength tbl p, [p.1, p.2]) := by
        simp [bestPairAux, hcmp]
      obtain ⟨ih1, ih2, ih3⟩ := ih (pairStrength tbl p, [p.1, p.2])
      refine ⟨?_, ?_, ?_⟩
      · rw [hstep]; exact le_trans (le_of_lt hcmp) ih1
      · rw [hstep]
        intro q hq
        rcases List.mem_cons.mp hq with rfl | hq2
        · exact ih1
        · exact ih2 q hq2
      · rw [hstep]
        rcases ih3 with heq | ⟨l1, p2, l2, hsplit, hres, hgt, hfirst⟩
        · right
          exact ⟨[], p, ps, rfl, by rw [heq], hcmp, by simp⟩
        · right
          refine ⟨p :: l1, p2, l2, by simp [hsplit], hres, lt_trans hcmp hgt, ?_⟩
          intro q hq
          rcases List.mem_cons.mp hq with rfl | hq2
          · exact hgt
          · exact hfirst q hq2
    · have hstep : bestPairAux tbl (p :: ps) acc = bestPairAux tbl ps acc := by
        simp [bestPairAux, hcmp]
      obtain ⟨ih1, ih2, ih3⟩ := ih acc
      refine ⟨?_, ?_, ?_⟩
      · rw [hstep]; exact ih1
      · rw [hstep]
        intro q hq
        rcases List.mem_cons.mp hq with rfl | hq2
        · exact le_trans (not_lt.mp hcmp) ih1
        · exact ih2 q hq2
      · rw [hstep]
        rcases ih3 with heq | ⟨l1, p2, l2, hsplit, hres, hgt, hfirst⟩
        · exact Or.inl heq
        · right
          refine ⟨p :: l1, p2, l2, by simp [hsplit], hres, hgt, ?_⟩
          intro q hq
          rcases List.mem_cons.mp hq with rfl | hq2
          · exact lt_of_le_of_lt (not_lt.mp hcmp) hgt
          · exact hfirst q hq2

/-- On a remaining list of at least two cards all of whose pairs have
positive table strength, one selection loop iteration picks the first
maximal-strength pair. -/
lemma bestPair_spec (tbl : String → ℚ) (cards : List Card)
    (h2 : 2 ≤ cards.length)
    (hpos : ∀ p ∈ pairsOf cards, 0 < pairStrength tbl p) :
    ∃ l1 p l2, pairsOf cards = l1 ++ p :: l2 ∧
      bestPair tbl cards = (pairStrength tbl p, [p.1, p.2]) ∧
      (∀ q ∈ pairsOf cards, pairStrength tbl q ≤ pairStrength tbl p) ∧
      ∀ q ∈ l1, pairStrength tbl q < pairStrength tbl p := by
  obtain ⟨_, hmax, hcase⟩ := bestPairAux_spec tbl (pairsOf cards) (0, [])
  rcases hcase with heq | ⟨l1, p, l2, hsplit, hres, _, hfirst⟩
  · exfalso
    match cards, h2 with
    | a :: b :: t, _ =>
      have hm := pairsOf_head_mem a b t
      have h0 := hpos _ hm
      have h1 := hmax _ hm
      rw [heq] at h1
      exact absurd (lt_of_lt_of_le h0 h1) (lt_irrefl 0)
  · refine ⟨l1, p, l2, hsplit, hres, ?_, hfirst⟩
    intro q hq
    have h3 := hmax q hq
    rw [hres] at h3
    exact h3

/-- Full description of one iteration of the `for k in range(3)` loop. -/
lemma allocate_step_spec (tbl : String → ℚ) (k : ℕ) (cards : List Card) (st : AllocState)
    (h2 : 2 ≤ cards.length) (hnd : cards.Nodup)
    (hpos : ∀ p ∈ pairsOf cards, 0 < pairStrength tbl p) :
    ∃ p : Card × Card, p ∈ pairsOf cards ∧
      (allocate_step tbl k cards st).1 =
        { board_allocations := Function.update st.board_allocations (2 - k) [p.1, p.2]
          hole_strengths := Function.update st.hole_strengths (2 - k) (pairStrength tbl p) } ∧
      (allocate_step tbl k cards st).2 = (cards.erase p.1).erase p.2 ∧
      cards.Perm (p.1 :: p.2 :: (allocate_step tbl k cards st).2) ∧
      (allocate_step tbl k cards st).2.Sublist cards ∧
      (allocate_step tbl k cards st).2.Nodup ∧
      (allocate_step tbl k cards st).2.length + 2 = cards.length ∧
      (∀ q ∈ pairsOf cards, pairStrength tbl q ≤ pairStrength tbl p) ∧
      ∃ l1 l2, pairsOf cards = l1 ++ p :: l2 ∧
        ∀ q ∈ l1, pairStrength tbl q < pairStrength tbl p := by
  obtain ⟨l1, p, l2, hsplit, hres, hmax, hfirst⟩ := bestPair_spec tbl cards h2 hpos
  have hpmem : p ∈ pairsOf cards := by rw [hsplit]; simp
  have hp1 : p.1 ∈ cards := (pairsOf_mem hpmem).1
  have hp2 : p.2 ∈ cards := (pairsOf_mem hpmem).2
  have hpne : p.1 ≠ p.2 := pairsOf_ne hnd hpmem
  have hstep1 : (allocate_step tbl k cards st).1 =
      { board_allocations := Function.update st.board_allocations (2 - k) [p.1, p.2]
        hole_strengths := Function.update st.hole_strengths (2 - k) (pairStrength tbl p) } := by
    unfold allocate_step
    rw [hres]
  have hstep2 : (allocate_step tbl k cards st).2 = (cards.erase p.1).erase p.2 := by
    unfold allocate_step
    rw [hres]
    rfl
  have hp2e : p.2 ∈ cards.erase p.1 := by
    rw [List.Nodup.mem_erase_iff hnd]
    exact ⟨Ne.symm hpne, hp2⟩
  have hperm : cards.Perm (p.1 :: p.2 :: (cards.erase p.1).erase p.2) :=
    (List.perm_cons_erase hp1).trans (List.Perm.cons p.1 (List.perm_cons_erase hp2e))
  have hsub : ((cards.erase p.1).erase p.2).Sublist cards :=
    (List.erase_sublist p.2 (cards.erase p.1)).trans (List.erase_sublist p.1 cards)
  have hnd2 : ((cards.erase p.1).erase p.2).Nodup := (hnd.erase p.1).erase p.2
  have hlen : ((cards.erase p.1).erase p.2).length + 2 = cards.length := by
    have := hperm.length_eq
    simp at this
    omega
  refine ⟨p, hpmem, hstep1, hstep2, ?_, ?_, ?_, ?_, hmax, l1, l2, hsplit, hfirst⟩
  · rw [hstep2]; exact hperm
  · rw [hstep2]; exact hsub
  · rw [hstep2]; exact hnd2
  · rw [hstep2]; exact hlen

/-- Master description of `allocate_cards` on a six-card no-duplicate input
whose candidate pairs all have positive table strength: the three selected
pairs, in selection order, land on boards 2, 1, 0 with their strengths; each
selection is a maximal-strength pair of its remaining list, first in
encounter order on ties; the strengths are selected in non-increasing order;
and the six selected cards are a permutation of the input. -/
lemma allocate_cards_spec (tbl : String → ℚ) (st : AllocState) (my_cards : List Card)
    (h6 : my_cards.length = 6) (hnd : my_cards.Nodup)
    (hpos : ∀ a ∈ my_cards, ∀ b ∈ my_cards, 0 < tbl (hole_list_to_key [a, b])) :
    ∃ p1 p2 p3 : Card × Card, ∃ rem1 rem2 : List Card,
      rem1 = ((sort_cards_by_rank my_cards).erase p1.1).erase p1.2 ∧
      rem2 = (rem1.erase p2.1).erase p2.2 ∧
      (allocate_cards tbl st my_cards).board_allocations 2 = [p1.1, p1.2] ∧
      (allocate_cards tbl st my_cards).board_allocations 1 = [p2.1, p2.2] ∧
      (allocate_cards tbl st my_cards).board_allocations 0 = [p3.1, p3.2] ∧
      (allocate_cards tbl st my_cards).hole_strengths 2 = pairStrength tbl p1 ∧
      (allocate_cards tbl st my_cards).hole_strengths 1 = pairStrength tbl p2 ∧
      (allocate_cards tbl st my_cards).hole_strengths 0 = pairStrength tbl p3 ∧
      (∀ q ∈ pairsOf (sort_cards_by_rank my_cards),
        pairStrength tbl q ≤ pairStrength tbl p1) ∧
      (∃ l1 l2, pairsOf (sort_cards_by_rank my_cards) = l1 ++ p1 :: l2 ∧
        ∀ q ∈ l1, pairStrength tbl q < pairStrength tbl p1) ∧
      (∀ q ∈ pairsOf rem1, pairStrength tbl q ≤ pairStrength tbl p2) ∧
      (∃ l1 l2, pairsOf rem1 = l1 ++ p2 :: l2 ∧
        ∀ q ∈ l1, pairStrength tbl q < pairStrength tbl p2) ∧
      (∀ q ∈ pairsOf rem2, pairStrength tbl q ≤ pairStrength tbl p3) ∧
      (∃ l1 l2, pairsOf rem2 = l1 ++ p3 :: l2 ∧
        ∀ q ∈ l1, pairStrength tbl q < pairStrength tbl p3) ∧
      (pairStrength tbl p3 ≤ pairStrength tbl p2 ∧
        pairStrength tbl p2 ≤ pairStrength tbl p1) ∧
      my_cards.Perm [p1.1, p1.2, p2.1, p2.2, p3.1, p3.2] := by
  have hperm0 : (sort_cards_by_rank my_cards).Perm my_cards :=
    List.mergeSort_perm my_cards _
  have hnd0 : (sort_cards_by_rank my_cards).Nodup := hperm0.nodup_iff.mpr hnd
  have hlen0 : (sort_cards_by_rank my_cards).length = 6 := by
    rw [hperm0.length_eq, h6]
  have hpos0 : ∀ p ∈ pairsOf (sort_cards_by_rank my_cards), 0 < pairStrength tbl p := by
    intro p hp
    exact hpos p.1 (hperm0.subset (pairsOf_mem hp).1) p.2 (hperm0.subset (pairsOf_mem hp).2)
  obtain ⟨p1, hp1mem, hst1, hrem1, hperm1, hsub1, hnd1, hlen1, hmax1, l11, l12, hsplit1,
    hfirst1⟩ :=
    allocate_step_spec tbl 0 (sort_cards_by_rank my_cards) st (by omega) hnd0 hpos0
  have hpos1 : ∀ p ∈ pairsOf ((allocate_step tbl 0 (sort_cards_by_rank my_cards) st).2),
      0 < pairStrength tbl p := by
    intro p hp
    exact hpos0 p (pairsOf_sublist hsub1 p hp)
  obtain ⟨p2, hp2mem, hst2, hrem2, hperm2, hsub2, hnd2, hlen2, hmax2, l21, l22, hsplit2,
    hfirst2⟩ :=
    allocate_step_spec tbl 1 ((allocate_step tbl 0 (sort_cards_by_rank my_cards) st).2)
      ((allocate_step tbl 0 (sort_cards_by_rank my_cards) st).1) (by omega) hnd1 hpos1
  have hpos2 : ∀ p ∈ pairsOf ((allocate_step tbl 1
      ((allocate_step tbl 0 (sort_cards_by_rank my_cards) st).2)
      ((allocate_step tbl 0 (sort_cards_by_rank my_cards) st).1)).2),
      0 < pairStrength tbl p := by
    intro p hp
    exact hpos1 p (pairsOf_sublist hsub2 p hp)
  obtain ⟨p3, hp3mem, hst3, hrem3, hperm3, hsub3, hnd3, hlen3, hmax3, l31, l32, hsplit3,
    hfirst3⟩ :=
    allocate_step_spec tbl 2
      ((allocate_step tbl 1 ((allocate_step tbl 0 (sort_cards_by_rank my_cards) st).2)
        ((allocate_step tbl 0 (sort_cards_by_rank my_cards) st).1)).2)
      ((allocate_step tbl 1 ((allocate_step tbl 0 (sort_cards_by_rank my_cards) st).2)
        ((allocate_step tbl 0 (sort_cards_by_rank my_cards) st).1)).1) (by omega) hnd2 hpos2
  have hAC : allocate_cards tbl st my_cards =
      (allocate_step tbl 2
        ((allocate_step tbl 1 ((allocate_step tbl 0 (sort_cards_by_rank my_cards) st).2)
          ((allocate_step tbl 0 (sort_cards_by_rank my_cards) st).1)).2)
        ((allocate_step tbl 1 ((allocate_step tbl 0 (sort_cards_by_rank my_cards) st).2)
          ((allocate_step tbl 0 (sort_cards_by_rank my_cards) st).1)).1)).1 := rfl
  have e0 : (2 : ℕ) - 0 = 2 := rfl
  have e1 : (2 : ℕ) - 1 = 1 := rfl
  have e2 : (2 : ℕ) - 2 = 0 := rfl
  have hb2 : (allocate_cards tbl st my_cards).board_allocations 2 = [p1.1, p1.2] := by
    rw [hAC, hst3]
    dsimp only
    rw [e2, Function.update_noteq (by norm_num), hst2]
    dsimp only
    rw [e1, Function.update_noteq (by norm_num), hst1]
    dsimp only
    rw [e0, Function.update_same]
  have hb1 : (allocate_cards tbl st my_cards).board_allocations 1 = [p2.1, p2.2] := by
    rw [hAC, hst3]
    dsimp only
    rw [e2, Function.update_noteq (by norm_num), hst2]
    dsimp only
    rw [e1, Function.update_same]
  have hb0 : (allocate_cards tbl st my_cards).board_allocations 0 = [p3.1, p3.2] := by
    rw [hAC, hst3]
    dsimp only
    rw [e2, Function.update_same]
  have hs2 : (allocate_cards tbl st my_cards).hole_strengths 2 = pairStrength tbl p1 := by
    rw [hAC, hst3]
    dsimp only
    rw [e2, Function.update_noteq (by norm_num), hst2]
    dsimp only
    rw [e1, Function.update_noteq (by norm_num), hst1]
    dsimp only
    rw [e0, Function.update_same]
  have hs1 : (allocate_cards tbl st my_cards).hole_strengths 1 = pairStrength tbl p2 := by
    rw [hAC, hst3]
    dsimp only
    rw [e2, Function.update_noteq (by norm_num), hst2]
    dsimp only
    rw [e1, Function.update_same]
  have hs0 : (allocate_cards tbl st my_cards).hole_strengths 0 = pairStrength tbl p3 := by
    rw [hAC, hst3]
    dsimp only
    rw [e2, Function.update_same]
  have hord2 : pairStrength tbl p2 ≤ pairStrength tbl p1 :=
    hmax1 p2 (pairsOf_sublist hsub1 p2 hp2mem)
  have hord3 : pairStrength tbl p3 ≤ pairStrength tbl p2 :=
    hmax2 p3 (pairsOf_sublist hsub2 p3 hp3mem)
  have hnil : (allocate_step tbl 2
      ((allocate_step tbl 1 ((allocate_step tbl 0 (sort_cards_by_rank my_cards) st).2)
        ((allocate_step tbl 0 (sort_cards_by_rank my_cards) st).1)).2)
      ((allocate_step tbl 1 ((allocate_step tbl 0 (sort_cards_by_rank my_cards) st).2)
        ((allocate_step tbl 0 (sort_cards_by_rank my_cards) st).1)).1)).2 = [] := by
    have := hperm1.length_eq
    have := hperm2.length_eq
    have := hperm3.length_eq
    simp only [List.length_cons] at *
    have hz : (allocate_step tbl 2
      ((allocate_step tbl 1 ((allocate_step tbl 0 (sort_cards_by_rank my_cards) st).2)
        ((allocate_step tbl 0 (sort_cards_by_rank my_cards) st).1)).2)
      ((allocate_step tbl 1 ((allocate_step tbl 0 (sort_cards_by_rank my_cards) st).2)
        ((allocate_step tbl 0 (sort_cards_by_rank my_cards) st).1)).1)).2.length = 0 := by
      omega
    exact List.length_eq_zero.mp hz
  have hP : my_cards.Perm [p1.1, p1.2, p2.1, p2.2, p3.1, p3.2] := by
    rw [hnil] at hperm3
    have h12 : ((allocate_step tbl 0 (sort_cards_by_rank my_cards) st).2).Perm
        (p2.1 :: p2.2 :: p3.1 :: p3.2 :: []) :=
      hperm2.trans (List.Perm.cons p2.1 (List.Perm.cons p2.2 hperm3))
    have h01 : (sort_cards_by_rank my_cards).Perm
        (p1.1 :: p1.2 :: p2.1 :: p2.2 :: p3.1 :: p3.2 :: []) :=
      hperm1.trans (List.Perm.cons p1.1 (List.Perm.cons p1.2 h12))
    exact hperm0.symm.trans h01
  refine ⟨p1, p2, p3, (allocate_step tbl 0 (sort_cards_by_rank my_cards) st).2,
    (allocate_step tbl 1 ((allocate_step tbl 0 (sort_cards_by_rank my_cards) st).2)
      ((allocate_step tbl 0 (sort_cards_by_rank my_cards) st).1)).2,
    hrem1, hrem2, hb2, hb1, hb0, hs2, hs1, hs0,
    hmax1, ⟨l11, l12, hsplit1, hfirst1⟩, hmax2, ⟨l21, l22, hsplit2, hfirst2⟩,
    hmax3, ⟨l31, l32, hsplit3, hfirst3⟩, ⟨hord3, hord2⟩, hP⟩

lemma perm_six {α : Type} (a b c d e f : α) :
    ([e, f] ++ [c, d] ++ [a, b]).Perm [a, b, c, d, e, f] := by
  have h1 : (([e, f] ++ ([c, d] ++ [a, b])) : List α).Perm (([c, d] ++ [a, b]) ++ [e, f]) :=
    List.perm_append_comm
  have h2 : ((([c, d] ++ [a, b]) ++ [e, f]) : List α).Perm (([a, b] ++ [c, d]) ++ [e, f]) :=
    List.Perm.append_right [e, f] List.perm_append_comm
  exact h1.trans h2

/-- Claim C4: on six distinct input cards all of whose candidate pairs have
positive table strength, `allocate_cards` produces three two-card hands that
are pairwise disjoint and together are exactly the six input cards. -/
theorem allocate_partition (tbl : String → ℚ) (st : AllocState) (my_cards : List Card)
    (h6 : my_cards.length = 6) (hnd : my_cards.Nodup)
    (hpos : ∀ a ∈ my_cards, ∀ b ∈ my_cards, 0 < tbl (hole_list_to_key [a, b])) :
    ((allocate_cards tbl st my_cards).board_allocations 0).length = 2 ∧
    ((allocate_cards tbl st my_cards).board_allocations 1).length = 2 ∧
    ((allocate_cards tbl st my_cards).board_allocations 2).length = 2 ∧
    ((allocate_cards tbl st my_cards).board_allocations 0).Disjoint
      ((allocate_cards tbl st my_cards).board_allocations 1) ∧
    ((allocate_cards tbl st my_cards).board_allocations 0).Disjoint
      ((allocate_cards tbl st my_cards).board_allocations 2) ∧
    ((allocate_cards tbl st my_cards).board_allocations 1).Disjoint
      ((allocate_cards tbl st my_cards).board_allocations 2) ∧
    ((allocate_cards tbl st my_cards).board_allocations 0 ++
      (allocate_cards tbl st my_cards).board_allocations 1 ++
      (allocate_cards tbl st my_cards).board_allocations 2).Perm my_cards := by
  obtain ⟨p1, p2, p3, rem1, rem2, _, _, hb2, hb1, hb0, _, _, _, _, _, _, _, _, _, _, hP⟩ :=
    allocate_cards_spec tbl st my_cards h6 hnd hpos
  have hPerm : ((allocate_cards tbl st my_cards).board_allocations 0 ++
      (allocate_cards tbl st my_cards).board_allocations 1 ++
      (allocate_cards tbl st my_cards).board_allocations 2).Perm my_cards := by
    rw [hb0, hb1, hb2]
    exact (perm_six p1.1 p1.2 p2.1 p2.2 p3.1 p3.2).trans hP.symm
  have hN : ((allocate_cards tbl st my_cards).board_allocations 0 ++
      (allocate_cards tbl st my_cards).board_allocations 1 ++
      (allocate_cards tbl st my_cards).board_allocations 2).Nodup :=
    hPerm.nodup_iff.mpr hnd
  obtain ⟨hn01, hn2, hd2⟩ := List.nodup_append.mp hN
  obtain ⟨hn0, hn1, hd01⟩ := List.nodup_append.mp hn01
  refine ⟨by rw [hb0]; rfl, by rw [hb1]; rfl, by rw [hb2]; rfl, hd01, ?_, ?_, hPerm⟩
  · intro x hx hy
    exact hd2 (List.mem_append_left _ hx) hy
  · intro x hx hy
    exact hd2 (List.mem_append_right _ hx) hy

def wTbl : String → ℚ := fun _ => 1

def wSt : AllocState := ⟨fun _ => [], fun _ => 0⟩

def wCards : List Card :=
  [⟨'A', 's'⟩, ⟨'A', 'h'⟩, ⟨'K', 'd'⟩, ⟨'K', 's'⟩, ⟨'2', 'c'⟩, ⟨'2', 'd'⟩]

theorem allocate_partition_witness :
    wCards.Nodup ∧
    ((allocate_cards wTbl wSt wCards).board_allocations 0 ++
      (allocate_cards wTbl wSt wCards).board_allocations 1 ++
      (allocate_cards wTbl wSt wCards).board_allocations 2).Perm wCards :=
  ⟨by decide, (allocate_partition wTbl wSt wCards rfl (by decide) (by decide)).2.2.2.2.2.2⟩

/-- The pair selected by one iteration of the allocator's scan: maximal table
strength among the remaining pairs, and first in encounter order on ties
(every strictly earlier pair in the scan is strictly weaker). -/
def greedyPick (tbl : String → ℚ) (cards : List Card) (p : Card × Card) : Prop :=
  (∀ q ∈ pairsOf cards, pairStrength tbl q ≤ pairStrength tbl p) ∧
  ∃ l1 l2, pairsOf cards = l1 ++ p :: l2 ∧
    ∀ q ∈ l1, pairStrength tbl q < pairStrength tbl p

/-- Claim C8: the allocator's selection loop is a greedy maximum — each of
the three iterations picks, among the remaining pairs in encounter order, a
pair of maximal table strength (the first such pair on ties), and the first
selection is assigned to board 2, the second to board 1, the third to
board 0. -/
theorem allocate_greedy (tbl : String → ℚ) (st : AllocState) (my_cards : List Card)
    (h6 : my_cards.length = 6) (hnd : my_cards.Nodup)
    (hpos : ∀ a ∈ my_cards, ∀ b ∈ my_cards, 0 < tbl (hole_list_to_key [a, b])) :
    ∃ p1 p2 p3 : Card × Card, ∃ rem1 rem2 : List Card,
      rem1 = ((sort_cards_by_rank my_cards).erase p1.1).erase p1.2 ∧
      rem2 = (rem1.erase p2.1).erase p2.2 ∧
      greedyPick tbl (sort_cards_by_rank my_cards) p1 ∧
      greedyPick tbl rem1 p2 ∧
      greedyPick tbl rem2 p3 ∧
      (allocate_cards tbl st my_cards).board_allocations 2 = [p1.1, p1.2] ∧
      (allocate_cards tbl st my_cards).board_allocations 1 = [p2.1, p2.2] ∧
      (allocate_cards tbl st my_cards).board_allocations 0 = [p3.1, p3.2] := by
  obtain ⟨p1, p2, p3, rem1, rem2, hr1, hr2, hb2, hb1, hb0, _, _, _,
    hmax1, hfirst1, hmax2, hfirst2, hmax3, hfirst3, _, _⟩ :=
    allocate_cards_spec tbl st my_cards h6 hnd hpos
  exact ⟨p1, p2, p3, rem1, rem2, hr1, hr2, ⟨hmax1, hfirst1⟩, ⟨hmax2, hfirst2⟩,
    ⟨hmax3, hfirst3⟩, hb2, hb1, hb0⟩

theorem allocate_greedy_witness :
    wCards.Nodup ∧
    ∃ p1 p2 p3 : Card × Card, ∃ rem1 rem2 : List Card,
      rem1 = ((sort_cards_by_rank wCards).erase p1.1).erase p1.2 ∧
      rem2 = (rem1.erase p2.1).erase p2.2 ∧
      greedyPick wTbl (sort_cards_by_rank wCards) p1 ∧
      greedyPick wTbl rem1 p2 ∧
      greedyPick wTbl rem2 p3 ∧
      (allocate_cards wTbl wSt wCards).board_allocations 2 = [p1.1, p1.2] ∧
      (allocate_cards wTbl wSt wCards).board_allocations 1 = [p2.1, p2.2] ∧
      (allocate_cards wTbl wSt wCards).board_allocations 0 = [p3.1, p3.2] :=
  ⟨by decide, allocate_greedy wTbl wSt wCards rfl (by decide) (by decide)⟩

/-- Claim C9: after allocation on six distinct cards (all pairs positive in
the table), the recorded per-board strengths are monotonically non-increasing
from the back board down:
`hole_strengths 0 ≤ hole_strengths 1 ≤ hole_strengths 2`. -/
theorem allocate_strengths_sorted (tbl : String → ℚ) (st : AllocState) (my_cards : List Card)
    (h6 : my_cards.length = 6) (hnd : my_cards.Nodup)
    (hpos : ∀ a ∈ my_cards, ∀ b ∈ my_cards, 0 < tbl (hole_list_to_key [a, b])) :
    (allocate_cards tbl st my_cards).hole_strengths 0 ≤
      (allocate_cards tbl st my_cards).hole_strengths 1 ∧
    (allocate_cards tbl st my_cards).hole_strengths 1 ≤
      (allocate_cards tbl st my_cards).hole_strengths 2 := by
  obtain ⟨p1, p2, p3, rem1, rem2, _, _, _, _, _, hs2, hs1, hs0, _, _, _, _, _, _, hord, _⟩ :=
    allocate_cards_spec tbl st my_cards h6 hnd hpos
  rw [hs0, hs1, hs2]
  exact hord

theorem allocate_strengths_sorted_witness :
    wCards.Nodup ∧
    ((allocate_cards wTbl wSt wCards).hole_strengths 0 ≤
      (allocate_cards wTbl wSt wCards).hole_strengths 1 ∧
    (allocate_cards wTbl wSt wCards).hole_strengths 1 ≤
      (allocate_cards wTbl wSt wCards).hole_strengths 2) :=
  ⟨by decide, allocate_strengths_sorted wTbl wSt wCards rfl (by decide) (by decide)⟩

end APPoker
